import Mathlib

set_option maxHeartbeats 1000000

/-!
Shallow embedding of the cipher core of the image-steganography repository:
HillCipher from src/ciphers/hill_cipher.py, VigenereCipher from
src/ciphers/vigenere_cipher.py and CipherEngine from src/cipher_engine.py.

Modelling conventions:
* Python strings are lists of Unicode code points, `List Nat`; Python ord
  and chr are the identity on code points.  Python str.isalpha and
  str.upper are modelled on the ASCII range: code points outside ASCII are
  treated as non-alphabetic.
* Python integers are `Int`; Python `%` with a positive modulus agrees with
  `Int.emod`.
* The value of `round` applied to the floating determinant of numpy, and
  the float adjugate obtained by rounding the product of the float inverse
  with the float determinant, are modelled by the exact integer determinant
  and adjugate: the integer value the rounding is intended to produce.
* A raised Python exception is modelled by `Except.error` or `none`.  A
  numpy matrix-vector product with a block whose length differs from the
  matrix order raises a ValueError, which the block processor models by
  returning `none`.
-/

/-- Python str.isalpha for a single code point, restricted to ASCII. -/
def pyIsAlpha (c : Nat) : Bool :=
  (65 ≤ c && c ≤ 90) || (97 ≤ c && c ≤ 122)

/-- Python str.upper for a single code point, restricted to ASCII. -/
def pyToUpper (c : Nat) : Nat :=
  if 97 ≤ c && c ≤ 122 then c - 32 else c

/-- The uppercase-letters-only normalisation both ciphers apply to text:
keep alphabetic characters and convert them to uppercase. -/
def pyNormalize (s : List Nat) : List Nat :=
  (s.filter pyIsAlpha).map pyToUpper

/-- HillCipher and VigenereCipher method underscore-text-to-numbers: the
value of each retained alphabetic character, with A mapped to 0. -/
def textToNumbers (s : List Nat) : List Int :=
  (s.filter pyIsAlpha).map (fun c => (pyToUpper c : Int) - 65)

/-- HillCipher and VigenereCipher method underscore-numbers-to-text. -/
def numbersToText (l : List Int) : List Nat :=
  l.map (fun v => v.toNat + 65)

/-- Value of an uppercase letter code point, with A mapped to 0. -/
def letterVal (c : Nat) : Int := (c : Int) - 65

/-- HillCipher method underscore-pad-text: normalise, then right-pad with
code point 88, the letter X, until the length is a multiple of n. -/
def padText (n : Nat) (s : List Nat) : List Nat :=
  if (pyNormalize s).length % n ≠ 0 then
    pyNormalize s ++ List.replicate (n - (pyNormalize s).length % n) 88
  else pyNormalize s

/-- Integer dot product of a matrix row with a block vector. -/
def dotInt (r v : List Int) : Int :=
  (List.zipWith (fun a b => a * b) r v).sum

/-- Matrix-vector product followed by entrywise reduction mod 26, the
per-block operation of both HillCipher.encrypt and HillCipher.decrypt. -/
def matVecMod (M : List (List Int)) (v : List Int) : List Int :=
  M.map (fun row => dotInt row v % 26)

/-- Exact integer determinant of a 2x2 or 3x3 matrix in nested-list form;
model of round applied to the numpy float determinant. -/
def detM : List (List Int) → Int
  | [[a, b], [c, d]] => a * d - b * c
  | [[a, b, c], [d, e, f], [g, h, i]] =>
      a * (e * i - f * h) - b * (d * i - f * g) + c * (d * h - e * g)
  | _ => 0

/-- Exact integer adjugate of a 2x2 or 3x3 matrix: for order 2 the literal
matrix built by HillCipher with entries d, minus b, minus c, a; for order 3
the model of rounding the float inverse multiplied by the float
determinant. -/
def adjM : List (List Int) → List (List Int)
  | [[a, b], [c, d]] => [[d, -b], [-c, a]]
  | [[a, b, c], [d, e, f], [g, h, i]] =>
      [[e * i - f * h, c * h - b * i, b * f - c * e],
       [f * g - d * i, a * i - c * g, c * d - a * f],
       [d * h - e * g, b * g - a * h, a * e - b * d]]
  | _ => []

/-- Structural worker for the block loop, recursing on a fuel argument so
that the kernel can evaluate it; the fuel is always at least the list
length, making the fuel-exhaustion branch unreachable. -/
def blocksMulModGo (M : List (List Int)) (n : Nat) : Nat → List Int → Option (List Int)
  | _, [] => some []
  | 0, _ :: _ => none
  | fuel + 1, x :: xs =>
      if (x :: xs).length < n then none
      else
        match blocksMulModGo M n fuel ((x :: xs).drop n) with
        | none => none
        | some rest => some (matVecMod M ((x :: xs).take n) ++ rest)

/-- The block loop shared by HillCipher.encrypt and decrypt: split the
number list into consecutive chunks of size n and apply `matVecMod` to
each.  A trailing chunk shorter than n makes the numpy product raise,
modelled by `none`; a zero step would make Python range raise, also
modelled by `none`. -/
def blocksMulMod (M : List (List Int)) (n : Nat) (nums : List Int) :
    Option (List Int) :=
  if n = 0 then none else blocksMulModGo M n nums.length nums

/-- HillCipher method underscore-mod-inverse: linear scan over 1..m-1 for a
modular inverse; `none` models the raised ValueError. -/
def modInverseScan (a m : Int) : Option Int :=
  ((List.range' 1 (m.toNat - 1)).map (fun x => (x : Int))).find?
    (fun x => a % m * x % m == 1)

/-- Decidable equality for Except values, used only to let concrete
construction results be evaluated by decide. -/
instance exceptDecEq {ε α : Type} [DecidableEq ε] [DecidableEq α] :
    DecidableEq (Except ε α)
  | .ok a, .ok b =>
      if h : a = b then .isTrue (by rw [h])
      else .isFalse (by intro hc; cases hc; exact h rfl)
  | .ok _, .error _ => .isFalse (by intro hc; cases hc)
  | .error _, .ok _ => .isFalse (by intro hc; cases hc)
  | .error a, .error b =>
      if h : a = b then .isTrue (by rw [h])
      else .isFalse (by intro hc; cases hc; exact h rfl)

/-- Construction-time failures of the cipher classes.  raggedArray is the
ValueError of building a numpy array from rows of unequal length;
invalidKeyShape and singularKey are the two explicit ValueErrors of
HillCipher init; nonSquareLinAlg is the LinAlgError numpy raises when the
determinant of a non-square array is requested; noModularInverse is the
ValueError of the modular-inverse scan; emptyKey is the ValueError of
VigenereCipher init. -/
inductive InitError where
  | raggedArray
  | invalidKeyShape
  | nonSquareLinAlg
  | singularKey
  | noModularInverse
  | emptyKey
deriving DecidableEq

/-- State of a constructed HillCipher: the order, the key matrix as given,
and the precomputed inverse matrix mod 26. -/
structure HillState where
  n : Nat
  key : List (List Int)
  inv : List (List Int)
deriving DecidableEq

/-- HillCipher init together with underscore-mod-inverse-matrix: build the
numpy array, check the order is 2 or 3, check invertibility mod 26 of the
determinant, then precompute the inverse matrix as the adjugate scaled by
the modular inverse of the determinant, reduced mod 26. -/
def hillInit (M : List (List Int)) : Except InitError HillState :=
  if ¬ (∀ r ∈ M, r.length = (M.headD []).length) then .error .raggedArray
  else if ¬ (M.length = 2 ∨ M.length = 3) then .error .invalidKeyShape
  else if (M.headD []).length ≠ M.length then .error .nonSquareLinAlg
  else if detM M % 26 = 0 ∨ Int.gcd (detM M % 26) 26 ≠ 1 then .error .singularKey
  else
    match modInverseScan (detM M % 26) 26 with
    | none => .error .noModularInverse
    | some di =>
        .ok ⟨M.length, M, (adjM M).map (fun row => row.map (fun x => di * x % 26))⟩

/-- HillCipher.encrypt: pad, convert to numbers, process blocks through the
key matrix, convert back to text. -/
def hillEncrypt (st : HillState) (s : List Nat) : Option (List Nat) :=
  (blocksMulMod st.key st.n (textToNumbers (padText st.n s))).map numbersToText

/-- HillCipher.decrypt: convert to numbers without padding, process blocks
through the inverse matrix, convert back to text. -/
def hillDecrypt (st : HillState) (s : List Nat) : Option (List Nat) :=
  (blocksMulMod st.inv st.n (textToNumbers s)).map numbersToText

/-- State of a constructed VigenereCipher: the normalised key and its cached
per-position offsets. -/
structure VigState where
  key : List Nat
  keyNumbers : List Int
deriving DecidableEq

/-- VigenereCipher init: normalise the key, fail when nothing alphabetic
remains, cache the offsets. -/
def vigInit (k : List Nat) : Except InitError VigState :=
  if pyNormalize k = [] then .error .emptyKey
  else .ok ⟨pyNormalize k, (pyNormalize k).map letterVal⟩

/-- The index loop of VigenereCipher.encrypt on number lists. -/
def vigEncryptNums (ks : List Int) (nums : List Int) : List Int :=
  nums.enum.map (fun p => (p.2 + ks.getD (p.1 % ks.length) 0) % 26)

/-- The index loop of VigenereCipher.decrypt on number lists. -/
def vigDecryptNums (ks : List Int) (nums : List Int) : List Int :=
  nums.enum.map (fun p => (p.2 - ks.getD (p.1 % ks.length) 0) % 26)

/-- VigenereCipher.encrypt: normalise, convert to numbers, add the cycled
key offsets mod 26, convert back to text. -/
def vigEncrypt (st : VigState) (s : List Nat) : List Nat :=
  numbersToText (vigEncryptNums st.keyNumbers (textToNumbers (pyNormalize s)))

/-- VigenereCipher.decrypt: normalise, convert to numbers, subtract the
cycled key offsets mod 26, convert back to text. -/
def vigDecrypt (st : VigState) (s : List Nat) : List Nat :=
  numbersToText (vigDecryptNums st.keyNumbers (textToNumbers (pyNormalize s)))

/-- State of a constructed CipherEngine: both sub-ciphers. -/
structure Engine where
  hill : HillState
  vig : VigState
deriving DecidableEq

/-- CipherEngine init: construct the Hill cipher, then the Vigenere cipher,
propagating either failure. -/
def engineInit (hk : List (List Int)) (vk : List Nat) : Except InitError Engine :=
  match hillInit hk with
  | .error e => .error e
  | .ok h =>
      match vigInit vk with
      | .error e => .error e
      | .ok v => .ok ⟨h, v⟩

/-- CipherEngine.encrypt: Hill stage then Vigenere stage. -/
def engineEncrypt (e : Engine) (s : List Nat) : Option (List Nat) :=
  (hillEncrypt e.hill s).map (vigEncrypt e.vig)

/-- CipherEngine.decrypt: Vigenere stage then Hill stage. -/
def engineDecrypt (e : Engine) (s : List Nat) : Option (List Nat) :=
  hillDecrypt e.hill (vigDecrypt e.vig s)

/-- Transcription of the specification wording for the Hill encryption
stage: normalise the text to uppercase letters-only, right-pad with the
letter X to a multiple of n, map letters to integers, multiply each of the
consecutive non-overlapping blocks of size n by the key matrix reduced
mod 26, and map the numbers back to letters.  Blocks are addressed here by
index rather than by the recursive chunking of the implementation. -/
def hillEncryptSpec (M : List (List Int)) (n : Nat) (s : List Nat) : List Nat :=
  let t := pyNormalize s
  let padded := t ++ List.replicate ((n - t.length % n) % n) 88
  let nums := padded.map letterVal
  (((List.range (nums.length / n)).map (fun b =>
      M.map (fun row => dotInt row ((nums.drop (b * n)).take n) % 26))).flatten).map
    (fun v => v.toNat + 65)

/-- Code points of the substitution key SECRET used by the spec scenario. -/
def secretKey : List Nat := "SECRET".toList.map Char.toNat

/-- The HillState produced by constructing a HillCipher from the matrix with
rows 3 3 and 2 5 of the spec scenario. -/
def testHill : HillState := ⟨2, [[3, 3], [2, 5]], [[15, 17], [20, 9]]⟩

/-- The VigState produced by constructing a VigenereCipher from SECRET. -/
def testVig : VigState := ⟨secretKey, [18, 4, 2, 17, 4, 19]⟩

/-- The Engine of the spec scenario. -/
def testEngine : Engine := ⟨testHill, testVig⟩

/-- Code points of the plaintext HELLOWORLD of the spec scenario. -/
def helloWorld : List Nat := "HELLOWORLD".toList.map Char.toNat

/-- Code points of the mixed plaintext of the non-letter-stripping spec
scenario. -/
def hiPunct : List Nat := "Hi, 2024!".toList.map Char.toNat

example : engineInit [[3, 3], [2, 5]] secretKey = .ok testEngine := by decide

/-! Basic facts about the character-level encoding. -/

theorem pyIsAlpha_iff {c : Nat} :
    pyIsAlpha c = true ↔ (65 ≤ c ∧ c ≤ 90) ∨ (97 ≤ c ∧ c ≤ 122) := by
  simp [pyIsAlpha]

theorem pyToUpper_of_upper {c : Nat} (h1 : 65 ≤ c) (h2 : c ≤ 90) :
    pyToUpper c = c := by
  unfold pyToUpper
  split
  next hc => simp only [Bool.and_eq_true, decide_eq_true_eq] at hc; omega
  next hc => rfl

theorem pyToUpper_range {c : Nat} (h : pyIsAlpha c = true) :
    65 ≤ pyToUpper c ∧ pyToUpper c ≤ 90 := by
  rw [pyIsAlpha_iff] at h
  unfold pyToUpper
  split
  next hc => simp only [Bool.and_eq_true, decide_eq_true_eq] at hc; omega
  next hc =>
    simp only [Bool.and_eq_true, decide_eq_true_eq, not_and, not_le] at hc
    omega

theorem pyIsAlpha_of_upper {c : Nat} (h1 : 65 ≤ c) (h2 : c ≤ 90) :
    pyIsAlpha c = true := by
  rw [pyIsAlpha_iff]; exact Or.inl ⟨h1, h2⟩

theorem pyNormalize_upper {s : List Nat} : ∀ c ∈ pyNormalize s, 65 ≤ c ∧ c ≤ 90 := by
  intro c hc
  simp only [pyNormalize, List.mem_map, List.mem_filter] at hc
  obtain ⟨a, ⟨_, ha⟩, rfl⟩ := hc
  exact pyToUpper_range ha

theorem pyNormalize_of_upper {s : List Nat} (h : ∀ c ∈ s, 65 ≤ c ∧ c ≤ 90) :
    pyNormalize s = s := by
  unfold pyNormalize
  rw [List.filter_eq_self.mpr (fun c hc => pyIsAlpha_of_upper (h c hc).1 (h c hc).2)]
  rw [List.map_congr_left (fun c hc => pyToUpper_of_upper (h c hc).1 (h c hc).2)]
  exact List.map_id s

theorem pyNormalize_length {s : List Nat} :
    (pyNormalize s).length = (s.filter pyIsAlpha).length := by
  simp [pyNormalize]

theorem textToNumbers_eq_map_of_upper {s : List Nat}
    (h : ∀ c ∈ s, 65 ≤ c ∧ c ≤ 90) :
    textToNumbers s = s.map letterVal := by
  unfold textToNumbers
  rw [List.filter_eq_self.mpr (fun c hc => pyIsAlpha_of_upper (h c hc).1 (h c hc).2)]
  exact List.map_congr_left fun c hc => by
    rw [pyToUpper_of_upper (h c hc).1 (h c hc).2]; rfl

theorem textToNumbers_pyNormalize (s : List Nat) :
    textToNumbers (pyNormalize s) = textToNumbers s := by
  unfold textToNumbers pyNormalize
  induction s with
  | nil => rfl
  | cons c t ih =>
    by_cases hc : pyIsAlpha c
    · have hup := pyToUpper_range hc
      simp only [List.filter_cons, hc, List.map_cons, if_pos,
        pyIsAlpha_of_upper hup.1 hup.2, pyToUpper_of_upper hup.1 hup.2]
      exact congrArg _ ih
    · simp only [List.filter_cons, List.map_cons, hc]
      simpa using ih

theorem textToNumbers_bounds {s : List Nat} :
    ∀ x ∈ textToNumbers s, 0 ≤ x ∧ x < 26 := by
  intro x hx
  simp only [textToNumbers, List.mem_map, List.mem_filter] at hx
  obtain ⟨c, ⟨_, hc⟩, rfl⟩ := hx
  have := pyToUpper_range hc
  omega

theorem textToNumbers_length {s : List Nat} :
    (textToNumbers s).length = (s.filter pyIsAlpha).length := by
  simp [textToNumbers]

theorem numbersToText_upper {l : List Int} (h : ∀ x ∈ l, 0 ≤ x ∧ x < 26) :
    ∀ c ∈ numbersToText l, 65 ≤ c ∧ c ≤ 90 := by
  intro c hc
  simp only [numbersToText, List.mem_map] at hc
  obtain ⟨x, hx, rfl⟩ := hc
  have := h x hx
  omega

theorem numbersToText_length {l : List Int} :
    (numbersToText l).length = l.length := by
  simp [numbersToText]

theorem textToNumbers_numbersToText {l : List Int} (h : ∀ x ∈ l, 0 ≤ x ∧ x < 26) :
    textToNumbers (numbersToText l) = l := by
  unfold textToNumbers numbersToText
  induction l with
  | nil => rfl
  | cons x t ih =>
    have hx := h x (List.mem_cons_self x t)
    have hrest : ∀ y ∈ t, 0 ≤ y ∧ y < 26 := fun y hy => h y (List.mem_cons_of_mem x hy)
    rw [List.map_cons, List.filter_cons_of_pos (pyIsAlpha_of_upper (by omega) (by omega)),
      List.map_cons, ih hrest]
    congr 1
    rw [pyToUpper_of_upper (by omega) (by omega)]
    omega

theorem numbersToText_map_sub {s : List Nat} (h : ∀ c ∈ s, 65 ≤ c ∧ c ≤ 90) :
    numbersToText (s.map letterVal) = s := by
  unfold numbersToText letterVal
  rw [List.map_map]
  have hpt : ∀ c ∈ s,
      ((fun v : Int => v.toNat + 65) ∘ fun c : Nat => (c : Int) - 65) c = id c := by
    intro c hc
    have := h c hc
    simp only [Function.comp_apply, id]
    omega
  rw [List.map_congr_left hpt, List.map_id]

theorem numbersToText_textToNumbers (s : List Nat) :
    numbersToText (textToNumbers s) = pyNormalize s := by
  unfold numbersToText textToNumbers pyNormalize
  rw [List.map_map]
  refine List.map_congr_left fun c hc => ?_
  have := pyToUpper_range (List.mem_filter.mp hc).2
  simp only [Function.comp_apply]
  omega

/-! Facts about the padding step. -/

theorem padText_upper {n : Nat} {s : List Nat} :
    ∀ c ∈ padText n s, 65 ≤ c ∧ c ≤ 90 := by
  intro c hc
  unfold padText at hc
  split at hc
  · rcases List.mem_append.mp hc with h | h
    · exact pyNormalize_upper c h
    · have := (List.eq_of_mem_replicate h)
      omega
  · exact pyNormalize_upper c hc

theorem padText_mod {n : Nat} {s : List Nat} (hn : 0 < n) :
    (padText n s).length % n = 0 := by
  unfold padText
  split
  next hr =>
    rw [List.length_append, List.length_replicate]
    have h1 : (pyNormalize s).length % n < n := Nat.mod_lt _ hn
    have h2 := Nat.div_add_mod (pyNormalize s).length n
    have h3 : (pyNormalize s).length + (n - (pyNormalize s).length % n) =
        n * ((pyNormalize s).length / n + 1) := by
      rw [Nat.mul_add, Nat.mul_one]
      omega
    rw [h3]
    exact Nat.mul_mod_right _ _
  next hr =>
    simpa using hr

theorem padText_length_bounds {n : Nat} {s : List Nat} (hn : 0 < n) :
    (s.filter pyIsAlpha).length ≤ (padText n s).length ∧
      (padText n s).length < (s.filter pyIsAlpha).length + n := by
  unfold padText
  have h1 : (pyNormalize s).length % n < n := Nat.mod_lt _ hn
  have hlen : (pyNormalize s).length = (s.filter pyIsAlpha).length := pyNormalize_length
  split
  next hr =>
    rw [List.length_append, List.length_replicate]
    omega
  next hr => omega

theorem padText_eq_self {n : Nat} {s : List Nat} (h : ∀ c ∈ s, 65 ≤ c ∧ c ≤ 90)
    (hlen : s.length % n = 0) : padText n s = s := by
  unfold padText
  rw [pyNormalize_of_upper h]
  simp [hlen]

theorem padText_eq_inline {n : Nat} {s : List Nat} (hn : 0 < n) :
    padText n s = pyNormalize s ++
      List.replicate ((n - (pyNormalize s).length % n) % n) 88 := by
  unfold padText
  have h1 : (pyNormalize s).length % n < n := Nat.mod_lt _ hn
  split
  next hr =>
    have h2 : (n - (pyNormalize s).length % n) % n = n - (pyNormalize s).length % n :=
      Nat.mod_eq_of_lt (by omega)
    rw [h2]
  next hr =>
    simp only [ne_eq, Decidable.not_not] at hr
    rw [hr, Nat.sub_zero, Nat.mod_self]
    simp

/-! Facts about the per-block matrix multiplication and the block loop. -/

theorem matVecMod_length {M : List (List Int)} {v : List Int} :
    (matVecMod M v).length = M.length := by
  simp [matVecMod]

theorem matVecMod_bounds {M : List (List Int)} {v : List Int} :
    ∀ x ∈ matVecMod M v, 0 ≤ x ∧ x < 26 := by
  intro x hx
  simp only [matVecMod, List.mem_map] at hx
  obtain ⟨row, _, rfl⟩ := hx
  exact ⟨Int.emod_nonneg _ (by norm_num), Int.emod_lt_of_pos _ (by norm_num)⟩

theorem blocksMulModGo_fuel {M : List (List Int)} {n : Nat} (hn : n ≠ 0) :
    ∀ k (f1 f2 : Nat) (nums : List Int), nums.length = k →
      nums.length ≤ f1 → nums.length ≤ f2 →
      blocksMulModGo M n f1 nums = blocksMulModGo M n f2 nums := by
  intro k
  induction k using Nat.strong_induction_on with
  | _ k ih =>
    intro f1 f2 nums hk h1 h2
    rcases nums with _ | ⟨x, xs⟩
    · cases f1 <;> cases f2 <;> rfl
    · rcases f1 with _ | g1
      · rw [List.length_cons] at h1
        omega
      rcases f2 with _ | g2
      · rw [List.length_cons] at h2
        omega
      simp only [blocksMulModGo]
      by_cases hlt : (x :: xs).length < n
      · rw [if_pos hlt, if_pos hlt]
      · rw [if_neg hlt, if_neg hlt]
        have hdl : ((x :: xs).drop n).length < k := by
          rw [List.length_drop, ← hk, List.length_cons]
          omega
        have hb1 : ((x :: xs).drop n).length ≤ g1 := by
          rw [List.length_drop, List.length_cons]
          rw [List.length_cons] at h1
          omega
        have hb2 : ((x :: xs).drop n).length ≤ g2 := by
          rw [List.length_drop, List.length_cons]
          rw [List.length_cons] at h2
          omega
        rw [ih _ hdl g1 g2 ((x :: xs).drop n) rfl hb1 hb2]

theorem blocksMulMod_nil {M : List (List Int)} {n : Nat} (hn : n ≠ 0) :
    blocksMulMod M n [] = some [] := by
  unfold blocksMulMod
  rw [if_neg hn]
  rfl

theorem blocksMulMod_short {M : List (List Int)} {n : Nat} {nums : List Int}
    (hn : n ≠ 0) (h : nums ≠ []) (hlen : nums.length < n) :
    blocksMulMod M n nums = none := by
  unfold blocksMulMod
  rw [if_neg hn]
  rcases nums with _ | ⟨x, xs⟩
  · exact absurd rfl h
  · simp only [List.length_cons, blocksMulModGo]
    rw [if_pos (by simpa using hlen)]

theorem blocksMulMod_step {M : List (List Int)} {n : Nat} {nums : List Int}
    (hn : n ≠ 0) (h : nums ≠ []) (hlen : ¬ nums.length < n) :
    blocksMulMod M n nums =
      match blocksMulMod M n (nums.drop n) with
      | none => none
      | some rest => some (matVecMod M (nums.take n) ++ rest) := by
  unfold blocksMulMod
  rw [if_neg hn, if_neg hn]
  rcases nums with _ | ⟨x, xs⟩
  · exact absurd rfl h
  · simp only [List.length_cons, blocksMulModGo]
    rw [if_neg (by simpa using hlen)]
    have hf := blocksMulModGo_fuel (M := M) hn ((x :: xs).drop n).length
      xs.length ((x :: xs).drop n).length ((x :: xs).drop n) rfl
      (by rw [List.length_drop, List.length_cons]; omega) le_rfl
    rw [hf]

theorem blocksMulMod_total {M : List (List Int)} {n : Nat}
    (hM : M.length = n) (hn : 0 < n) :
    ∀ k (nums : List Int), nums.length = k → nums.length % n = 0 →
      ∃ out, blocksMulMod M n nums = some out ∧ out.length = nums.length ∧
        (∀ x ∈ out, 0 ≤ x ∧ x < 26) := by
  intro k
  induction k using Nat.strong_induction_on with
  | _ k ih =>
    intro nums hk hmod
    rcases eq_or_ne nums [] with hnil | hnil
    · subst hnil
      exact ⟨[], blocksMulMod_nil (by omega), by simp⟩
    · have hpos : 0 < nums.length := List.length_pos.mpr hnil
      have hge : n ≤ nums.length := by
        by_contra hlt
        rw [Nat.mod_eq_of_lt (by omega)] at hmod
        omega
      have hdropmod : (nums.drop n).length % n = 0 := by
        rw [List.length_drop]
        have : nums.length - n + n = nums.length := by omega
        rw [← Nat.add_mod_right (nums.length - n) n, this]
        exact hmod
      obtain ⟨out, hout, hlen, hb⟩ :=
        ih (nums.drop n).length (by rw [List.length_drop]; omega)
          (nums.drop n) rfl hdropmod
      refine ⟨matVecMod M (nums.take n) ++ out, ?_, ?_, ?_⟩
      · rw [blocksMulMod_step (by omega) hnil (by omega), hout]
      · rw [List.length_append, matVecMod_length, hM, hlen, List.length_drop]
        omega
      · intro x hx
        rcases List.mem_append.mp hx with hx | hx
        · exact matVecMod_bounds x hx
        · exact hb x hx

theorem blocksMulMod_none {M : List (List Int)} {n : Nat} (hn : 0 < n) :
    ∀ k (nums : List Int), nums.length = k → nums.length % n ≠ 0 →
      blocksMulMod M n nums = none := by
  intro k
  induction k using Nat.strong_induction_on with
  | _ k ih =>
    intro nums hk hmod
    have hnil : nums ≠ [] := by
      intro hc
      subst hc
      simp at hmod
    by_cases hlt : nums.length < n
    · exact blocksMulMod_short (by omega) hnil hlt
    · have hdropmod : (nums.drop n).length % n ≠ 0 := by
        rw [List.length_drop]
        have heq : nums.length - n + n = nums.length := by omega
        rw [← Nat.add_mod_right (nums.length - n) n, heq]
        exact hmod
      rw [blocksMulMod_step (by omega) hnil hlt,
        ih (nums.drop n).length
          (by rw [List.length_drop]; have := List.length_pos.mpr hnil; omega)
          (nums.drop n) rfl hdropmod]

theorem blocksMulMod_out_bounds {M : List (List Int)} {n : Nat} :
    ∀ k (nums out : List Int), nums.length = k → blocksMulMod M n nums = some out →
      ∀ x ∈ out, 0 ≤ x ∧ x < 26 := by
  intro k
  induction k using Nat.strong_induction_on with
  | _ k ih =>
    intro nums out hk hout
    by_cases hn : n = 0
    · rw [hn] at hout
      unfold blocksMulMod at hout
      simp at hout
    rcases eq_or_ne nums [] with hnil | hnil
    · subst hnil
      rw [blocksMulMod_nil hn] at hout
      cases hout
      simp
    by_cases hlt : nums.length < n
    · rw [blocksMulMod_short hn hnil hlt] at hout
      cases hout
    · rw [blocksMulMod_step hn hnil hlt] at hout
      rcases hrest : blocksMulMod M n (nums.drop n) with _ | rest
      · rw [hrest] at hout
        cases hout
      · rw [hrest] at hout
        cases hout
        intro x hx
        rcases List.mem_append.mp hx with hx | hx
        · exact matVecMod_bounds x hx
        · exact ih (nums.drop n).length
            (by rw [List.length_drop]; have := List.length_pos.mpr hnil; omega)
            (nums.drop n) rest rfl hrest x hx

theorem blocksMulMod_roundtrip {M Minv : List (List Int)} {n : Nat}
    (hM : M.length = n) (hMinv : Minv.length = n) (hn : 0 < n)
    (hblock : ∀ v : List Int, (∀ x ∈ v, 0 ≤ x ∧ x < 26) → v.length = n →
      matVecMod Minv (matVecMod M v) = v) :
    ∀ k (nums out : List Int), nums.length = k → (∀ x ∈ nums, 0 ≤ x ∧ x < 26) →
      nums.length % n = 0 → blocksMulMod M n nums = some out →
      blocksMulMod Minv n out = some nums := by
  intro k
  induction k using Nat.strong_induction_on with
  | _ k ih =>
    intro nums out hk hb hmod hout
    rcases eq_or_ne nums [] with hnil | hnil
    · subst hnil
      rw [blocksMulMod_nil (by omega)] at hout
      cases hout
      exact blocksMulMod_nil (by omega)
    · have hpos : 0 < nums.length := List.length_pos.mpr hnil
      have hge : n ≤ nums.length := by
        by_contra hlt
        rw [Nat.mod_eq_of_lt (by omega)] at hmod
        omega
      have hdropmod : (nums.drop n).length % n = 0 := by
        rw [List.length_drop]
        have heq : nums.length - n + n = nums.length := by omega
        rw [← Nat.add_mod_right (nums.length - n) n, heq]
        exact hmod
      rw [blocksMulMod_step (by omega) hnil (by omega)] at hout
      rcases hrest : blocksMulMod M n (nums.drop n) with _ | rest
      · rw [hrest] at hout
        cases hout
      · rw [hrest] at hout
        cases hout
        have hihout := ih (nums.drop n).length (by rw [List.length_drop]; omega)
          (nums.drop n) rest rfl
          (fun x hx => hb x (List.mem_of_mem_drop hx)) hdropmod hrest
        have htklen : (matVecMod M (nums.take n)).length = n := by
          rw [matVecMod_length, hM]
        have hlen2 : (matVecMod M (nums.take n) ++ rest).length =
            n + rest.length := by
          rw [List.length_append, htklen]
        have hstep2 : blocksMulMod Minv n (matVecMod M (nums.take n) ++ rest) =
            match blocksMulMod Minv n ((matVecMod M (nums.take n) ++ rest).drop n) with
            | none => none
            | some r2 => some (matVecMod Minv ((matVecMod M (nums.take n) ++ rest).take n) ++ r2) := by
          refine blocksMulMod_step (by omega) ?_ ?_
          · intro hc
            have := congrArg List.length hc
            rw [hlen2] at this
            simp at this
            omega
          · rw [hlen2]
            omega
        have hdrop2 : (matVecMod M (nums.take n) ++ rest).drop n = rest :=
          List.drop_left' htklen
        have htake2 : (matVecMod M (nums.take n) ++ rest).take n =
            matVecMod M (nums.take n) :=
          List.take_left' htklen
        rw [hstep2, hdrop2, hihout]
        simp only [htake2,
          hblock (nums.take n) (fun x hx => hb x (List.mem_of_mem_take hx))
            (by rw [List.length_take]; omega),
          List.take_append_drop]

/-! The modular-arithmetic core: a block multiplied by the key matrix and
then by the stored inverse matrix comes back unchanged. -/

theorem cast26 (a : Int) : ((a % 26 : Int) : ZMod 26) = (a : ZMod 26) := by
  have h := ZMod.intCast_mod a 26
  norm_num at h
  exact h

theorem emod26_eq {e x : Int} (h0 : 0 ≤ x) (h1 : x < 26)
    (hc : ((e : Int) : ZMod 26) = ((x : Int) : ZMod 26)) : e % 26 = x := by
  have hm : e % 26 = x % 26 := (ZMod.intCast_eq_intCast_iff' e x 26).mp hc
  rw [hm, Int.emod_eq_of_lt h0 h1]

theorem block2_roundtrip (a b c d di x y : Int)
    (hdi : (a * d - b * c) % 26 % 26 * di % 26 = 1)
    (hx : 0 ≤ x) (hx2 : x < 26) (hy : 0 ≤ y) (hy2 : y < 26) :
    matVecMod [[di * d % 26, di * -b % 26], [di * -c % 26, di * a % 26]]
      (matVecMod [[a, b], [c, d]] [x, y]) = [x, y] := by
  have hdiZ : ((a : ZMod 26) * d - b * c) * di = 1 := by
    have h2 := congrArg (fun t : Int => (t : ZMod 26)) hdi
    push_cast [cast26] at h2
    linear_combination h2
  simp only [matVecMod, dotInt, List.map_cons, List.map_nil,
    List.zipWith_cons_cons, List.zipWith_nil_right, List.zipWith_nil_left,
    List.sum_cons, List.sum_nil, List.cons.injEq, and_true]
  refine ⟨?_, ?_⟩
  · refine emod26_eq hx hx2 ?_
    push_cast [cast26]
    linear_combination (x : ZMod 26) * hdiZ
  · refine emod26_eq hy hy2 ?_
    push_cast [cast26]
    linear_combination (y : ZMod 26) * hdiZ

theorem block3_roundtrip (a b c d e f g h i di x y z : Int)
    (hdi : (a * (e * i - f * h) - b * (d * i - f * g) + c * (d * h - e * g))
        % 26 % 26 * di % 26 = 1)
    (hx : 0 ≤ x) (hx2 : x < 26) (hy : 0 ≤ y) (hy2 : y < 26)
    (hz : 0 ≤ z) (hz2 : z < 26) :
    matVecMod
      [[di * (e * i - f * h) % 26, di * (c * h - b * i) % 26, di * (b * f - c * e) % 26],
       [di * (f * g - d * i) % 26, di * (a * i - c * g) % 26, di * (c * d - a * f) % 26],
       [di * (d * h - e * g) % 26, di * (b * g - a * h) % 26, di * (a * e - b * d) % 26]]
      (matVecMod [[a, b, c], [d, e, f], [g, h, i]] [x, y, z]) = [x, y, z] := by
  have hdiZ : ((a : ZMod 26) * (e * i - f * h) - b * (d * i - f * g) +
      c * (d * h - e * g)) * di = 1 := by
    have h2 := congrArg (fun t : Int => (t : ZMod 26)) hdi
    push_cast [cast26] at h2
    linear_combination h2
  simp only [matVecMod, dotInt, List.map_cons, List.map_nil,
    List.zipWith_cons_cons, List.zipWith_nil_right, List.zipWith_nil_left,
    List.sum_cons, List.sum_nil, List.cons.injEq, and_true]
  refine ⟨?_, ?_, ?_⟩
  · refine emod26_eq hx hx2 ?_
    push_cast [cast26]
    linear_combination (x : ZMod 26) * hdiZ
  · refine emod26_eq hy hy2 ?_
    push_cast [cast26]
    linear_combination (y : ZMod 26) * hdiZ
  · refine emod26_eq hz hz2 ?_
    push_cast [cast26]
    linear_combination (z : ZMod 26) * hdiZ

/-! Inversion of a successful HillCipher construction. -/

theorem hillInit_ok_spec {M : List (List Int)} {st : HillState}
    (h : hillInit M = .ok st) :
    st.key = M ∧ st.n = M.length ∧ (M.length = 2 ∨ M.length = 3) ∧
    (∀ r ∈ M, r.length = M.length) ∧
    ∃ di, modInverseScan (detM M % 26) 26 = some di ∧
      st.inv = (adjM M).map (fun row => row.map (fun x => di * x % 26)) := by
  unfold hillInit at h
  split_ifs at h with h1 h2 h3 h4
  rcases hscan : modInverseScan (detM M % 26) 26 with _ | di
  · rw [hscan] at h
    simp at h
  · rw [hscan] at h
    simp only [Except.ok.injEq] at h
    subst h
    refine ⟨rfl, rfl, h2, ?_, di, rfl, rfl⟩
    intro r hr
    rw [h1 r hr]
    simpa using h3

theorem hillInit_ok_props {M : List (List Int)} {st : HillState}
    (h : hillInit M = .ok st) :
    (st.n = 2 ∨ st.n = 3) ∧ st.key.length = st.n ∧ st.inv.length = st.n ∧
    ∀ v : List Int, (∀ x ∈ v, 0 ≤ x ∧ x < 26) → v.length = st.n →
      matVecMod st.inv (matVecMod st.key v) = v := by
  obtain ⟨hkey, hn, h23, hsq, di, hscan, hinv⟩ := hillInit_ok_spec h
  have hdi : (detM M % 26) % 26 * di % 26 = 1 := by
    have hfind := List.find?_some hscan
    exact beq_iff_eq.mp hfind
  rcases h23 with h2 | h3
  · obtain ⟨r1, r2, rfl⟩ := List.length_eq_two.mp h2
    have hr1 : r1.length = 2 := by simpa using hsq r1 (by simp)
    have hr2 : r2.length = 2 := by simpa using hsq r2 (by simp)
    obtain ⟨a, b, rfl⟩ := List.length_eq_two.mp hr1
    obtain ⟨c, d, rfl⟩ := List.length_eq_two.mp hr2
    refine ⟨Or.inl (by simp [hn]), by simp [hkey, hn], ?_, ?_⟩
    · rw [hinv, hn]
      simp [adjM]
    · intro v hv hvlen
      rw [hn] at hvlen
      obtain ⟨x, y, rfl⟩ := List.length_eq_two.mp (by simpa using hvlen)
      have hx := hv x (by simp)
      have hy := hv y (by simp)
      have hb2 := block2_roundtrip a b c d di x y (by simpa [detM] using hdi)
        hx.1 hx.2 hy.1 hy.2
      rw [hkey, hinv]
      simp only [adjM, List.map_cons, List.map_nil]
      exact hb2
  · obtain ⟨r1, r2, r3, rfl⟩ := List.length_eq_three.mp h3
    have hr1 : r1.length = 3 := by simpa using hsq r1 (by simp)
    have hr2 : r2.length = 3 := by simpa using hsq r2 (by simp)
    have hr3 : r3.length = 3 := by simpa using hsq r3 (by simp)
    obtain ⟨a, b, c, rfl⟩ := List.length_eq_three.mp hr1
    obtain ⟨d, e, f, rfl⟩ := List.length_eq_three.mp hr2
    obtain ⟨g, hh, i, rfl⟩ := List.length_eq_three.mp hr3
    refine ⟨Or.inr (by simp [hn]), by simp [hkey, hn], ?_, ?_⟩
    · rw [hinv, hn]
      simp [adjM]
    · intro v hv hvlen
      rw [hn] at hvlen
      obtain ⟨x, y, z, rfl⟩ := List.length_eq_three.mp (by simpa using hvlen)
      have hx := hv x (by simp)
      have hy := hv y (by simp)
      have hz := hv z (by simp)
      have hb3 := block3_roundtrip a b c d e f g hh i di x y z
        (by simpa [detM] using hdi) hx.1 hx.2 hy.1 hy.2 hz.1 hz.2
      rw [hkey, hinv]
      simp only [adjM, List.map_cons, List.map_nil]
      exact hb3

/-! Hill cipher: encryption always succeeds on padded input and decryption
inverts it. -/

theorem hill_roundtrip {M : List (List Int)} {st : HillState}
    (h : hillInit M = .ok st) (s : List Nat) :
    ∃ ct, hillEncrypt st s = some ct ∧ (∀ c ∈ ct, 65 ≤ c ∧ c ≤ 90) ∧
      ct.length = (padText st.n s).length ∧
      hillDecrypt st ct = some (padText st.n s) := by
  obtain ⟨h23, hkeylen, hinvlen, hblock⟩ := hillInit_ok_props h
  have hn : 0 < st.n := by omega
  have hpadupper : ∀ c ∈ padText st.n s, 65 ≤ c ∧ c ≤ 90 := padText_upper
  have hnums : textToNumbers (padText st.n s) =
      (padText st.n s).map letterVal := textToNumbers_eq_map_of_upper hpadupper
  have hnumlen : (textToNumbers (padText st.n s)).length =
      (padText st.n s).length := by
    rw [hnums, List.length_map]
  have hnumb : ∀ x ∈ textToNumbers (padText st.n s), 0 ≤ x ∧ x < 26 :=
    textToNumbers_bounds
  have hmod : (textToNumbers (padText st.n s)).length % st.n = 0 := by
    rw [hnumlen]
    exact padText_mod hn
  obtain ⟨out, hout, houtlen, houtb⟩ :=
    blocksMulMod_total hkeylen hn _ (textToNumbers (padText st.n s)) rfl hmod
  refine ⟨numbersToText out, ?_, numbersToText_upper houtb, ?_, ?_⟩
  · unfold hillEncrypt
    rw [hout]
    rfl
  · rw [numbersToText_length, houtlen, hnumlen]
  · unfold hillDecrypt
    rw [textToNumbers_numbersToText houtb,
      blocksMulMod_roundtrip hkeylen hinvlen hn hblock
        (textToNumbers (padText st.n s)).length _ out rfl hnumb hmod hout,
      Option.map_some']
    congr 1
    rw [hnums, numbersToText_map_sub hpadupper]

/-! Vigenere cipher lemmas. -/

theorem vigInit_ok_spec {k : List Nat} {st : VigState}
    (h : vigInit k = .ok st) :
    st.key = pyNormalize k ∧ st.keyNumbers = (pyNormalize k).map letterVal ∧
      st.keyNumbers ≠ [] ∧ (∀ x ∈ st.keyNumbers, 0 ≤ x ∧ x < 26) := by
  unfold vigInit at h
  split_ifs at h with h1
  simp only [Except.ok.injEq] at h
  subst h
  refine ⟨rfl, rfl, ?_, ?_⟩
  · simp only [ne_eq, List.map_eq_nil_iff]
    exact h1
  · intro x hx
    simp only [List.mem_map] at hx
    obtain ⟨c, hc, rfl⟩ := hx
    have := pyNormalize_upper c hc
    unfold letterVal
    omega

theorem vigEncryptNums_length {ks nums : List Int} :
    (vigEncryptNums ks nums).length = nums.length := by
  simp [vigEncryptNums]

theorem vigDecryptNums_length {ks nums : List Int} :
    (vigDecryptNums ks nums).length = nums.length := by
  simp [vigDecryptNums]

theorem vigEncryptNums_bounds {ks nums : List Int} :
    ∀ x ∈ vigEncryptNums ks nums, 0 ≤ x ∧ x < 26 := by
  intro x hx
  simp only [vigEncryptNums, List.mem_map] at hx
  obtain ⟨p, _, rfl⟩ := hx
  exact ⟨Int.emod_nonneg _ (by norm_num), Int.emod_lt_of_pos _ (by norm_num)⟩

theorem vigDecryptNums_bounds {ks nums : List Int} :
    ∀ x ∈ vigDecryptNums ks nums, 0 ≤ x ∧ x < 26 := by
  intro x hx
  simp only [vigDecryptNums, List.mem_map] at hx
  obtain ⟨p, _, rfl⟩ := hx
  exact ⟨Int.emod_nonneg _ (by norm_num), Int.emod_lt_of_pos _ (by norm_num)⟩

theorem vig_nums_roundtrip {ks nums : List Int}
    (hb : ∀ x ∈ nums, 0 ≤ x ∧ x < 26) :
    vigDecryptNums ks (vigEncryptNums ks nums) = nums := by
  unfold vigEncryptNums vigDecryptNums
  rw [List.enum_map, List.map_map]
  refine List.ext_getElem (by simp) ?_
  intro i h1 h2
  simp only [List.getElem_map, List.getElem_enum, Function.comp_apply, Prod.map_apply, id]
  have hi : i < nums.length := by simpa using h2
  have hbi := hb nums[i] (List.getElem_mem hi)
  omega

theorem vigEncrypt_upper {st : VigState} {s : List Nat} :
    ∀ c ∈ vigEncrypt st s, 65 ≤ c ∧ c ≤ 90 := by
  unfold vigEncrypt
  exact numbersToText_upper vigEncryptNums_bounds

theorem vigDecrypt_upper {st : VigState} {s : List Nat} :
    ∀ c ∈ vigDecrypt st s, 65 ≤ c ∧ c ≤ 90 := by
  unfold vigDecrypt
  exact numbersToText_upper vigDecryptNums_bounds

theorem vigEncrypt_length {st : VigState} {s : List Nat} :
    (vigEncrypt st s).length = (s.filter pyIsAlpha).length := by
  unfold vigEncrypt
  rw [numbersToText_length, vigEncryptNums_length, textToNumbers_pyNormalize,
    textToNumbers_length]

theorem vigDecrypt_length {st : VigState} {s : List Nat} :
    (vigDecrypt st s).length = (s.filter pyIsAlpha).length := by
  unfold vigDecrypt
  rw [numbersToText_length, vigDecryptNums_length, textToNumbers_pyNormalize,
    textToNumbers_length]

theorem vig_roundtrip {k : List Nat} {st : VigState}
    (h : vigInit k = .ok st) (s : List Nat) :
    vigDecrypt st (vigEncrypt st s) = pyNormalize s := by
  unfold vigDecrypt vigEncrypt
  rw [textToNumbers_pyNormalize
    (numbersToText (vigEncryptNums st.keyNumbers (textToNumbers (pyNormalize s)))),
    textToNumbers_numbersToText vigEncryptNums_bounds,
    vig_nums_roundtrip (by rw [textToNumbers_pyNormalize]; exact textToNumbers_bounds),
    textToNumbers_pyNormalize, numbersToText_textToNumbers]

/-! Engine-level assembly. -/

theorem engineInit_ok {hk : List (List Int)} {vk : List Nat} {e : Engine}
    (h : engineInit hk vk = .ok e) :
    hillInit hk = .ok e.hill ∧ vigInit vk = .ok e.vig := by
  unfold engineInit at h
  rcases hh : hillInit hk with eh | sh
  · rw [hh] at h
    simp at h
  · rw [hh] at h
    rcases hv : vigInit vk with ev | sv
    · rw [hv] at h
      simp at h
    · rw [hv] at h
      simp only [Except.ok.injEq] at h
      subst h
      exact ⟨rfl, rfl⟩

theorem engine_roundtrip {hk : List (List Int)} {vk : List Nat} {e : Engine}
    (h : engineInit hk vk = .ok e) (p : List Nat) :
    (engineEncrypt e p).bind (engineDecrypt e) = some (padText e.hill.n p) := by
  obtain ⟨hh, hv⟩ := engineInit_ok h
  obtain ⟨ct, hct, hctupper, hctlen, hctdec⟩ := hill_roundtrip hh p
  unfold engineEncrypt engineDecrypt
  rw [hct, Option.map_some', Option.some_bind, vig_roundtrip hv,
    pyNormalize_of_upper hctupper, hctdec]

/-! The claims. -/

/-- C1: for every pipeline constructed from a valid 2x2 or 3x3 Hill key
matrix and a substitution key containing at least one letter, and every
plaintext consisting solely of uppercase letters whose length is a multiple
of the matrix order, decrypting the encryption returns the plaintext
unchanged. -/
theorem C1_pipeline_roundtrip_clean (hk : List (List Int)) (vk : List Nat)
    (e : Engine) (p : List Nat) (hinit : engineInit hk vk = .ok e)
    (hupper : ∀ c ∈ p, 65 ≤ c ∧ c ≤ 90) (hlen : p.length % e.hill.n = 0) :
    (engineEncrypt e p).bind (engineDecrypt e) = some p := by
  rw [engine_roundtrip hinit p, padText_eq_self hupper hlen]

/-- C1 witness: the spec scenario pipeline on HELLOWORLD. -/
theorem C1_witness :
    (engineEncrypt testEngine helloWorld).bind (engineDecrypt testEngine) =
      some helloWorld :=
  C1_pipeline_roundtrip_clean [[3, 3], [2, 5]] secretKey testEngine helloWorld
    (by decide) (by decide) (by decide)

/-- C2: for every constructed pipeline and arbitrary plaintext, decrypting
the encryption returns the plaintext uppercased, with non-alphabetic
characters dropped, right-padded with the letter X to a multiple of the
matrix order. -/
theorem C2_pipeline_roundtrip_general (hk : List (List Int)) (vk : List Nat)
    (e : Engine) (p : List Nat) (hinit : engineInit hk vk = .ok e) :
    (engineEncrypt e p).bind (engineDecrypt e) =
      some ((p.filter pyIsAlpha).map pyToUpper ++
        List.replicate
          ((e.hill.n - ((p.filter pyIsAlpha).map pyToUpper).length % e.hill.n)
            % e.hill.n) 88) := by
  obtain ⟨hh, _⟩ := engineInit_ok hinit
  obtain ⟨h23, _, _, _⟩ := hillInit_ok_props hh
  rw [engine_roundtrip hinit p, padText_eq_inline (by omega)]
  rfl

/-- C2 witness: the spec scenario pipeline on a mixed-case punctuated
plaintext. -/
theorem C2_witness :
    (engineEncrypt testEngine hiPunct).bind (engineDecrypt testEngine) =
      some ((hiPunct.filter pyIsAlpha).map pyToUpper ++
        List.replicate
          ((testEngine.hill.n -
              ((hiPunct.filter pyIsAlpha).map pyToUpper).length % testEngine.hill.n)
            % testEngine.hill.n) 88) :=
  C2_pipeline_roundtrip_general [[3, 3], [2, 5]] secretKey testEngine hiPunct
    (by decide)

/-- C3 counterexample: the claim that decryption never fails is false; on
the constructible spec scenario pipeline, decrypting the one-letter string
A, whose alphabetic length 1 is not a multiple of the order 2, raises
inside numpy, modelled as `none`. -/
theorem C3_counterexample :
    engineInit [[3, 3], [2, 5]] secretKey = .ok testEngine ∧
      engineDecrypt testEngine [65] = none := by
  decide

/-- C3 amended: pipeline encryption is total over arbitrary strings, and
pipeline decryption succeeds exactly when the number of alphabetic
characters of the input is a multiple of the matrix order. -/
theorem C3_amended_totality (hk : List (List Int)) (vk : List Nat)
    (e : Engine) (hinit : engineInit hk vk = .ok e) (s : List Nat) :
    (engineEncrypt e s).isSome = true ∧
    ((engineDecrypt e s).isSome = true ↔
      (s.filter pyIsAlpha).length % e.hill.n = 0) := by
  obtain ⟨hh, hv⟩ := engineInit_ok hinit
  obtain ⟨h23, hklen, hilen, _⟩ := hillInit_ok_props hh
  have hn : 0 < e.hill.n := by omega
  constructor
  · obtain ⟨ct, hct, _, _, _⟩ := hill_roundtrip hh s
    unfold engineEncrypt
    rw [hct]
    rfl
  · have hfself : (vigDecrypt e.vig s).filter pyIsAlpha = vigDecrypt e.vig s :=
      List.filter_eq_self.mpr fun c hc =>
        pyIsAlpha_of_upper (vigDecrypt_upper c hc).1 (vigDecrypt_upper c hc).2
    have hlen : (textToNumbers (vigDecrypt e.vig s)).length =
        (s.filter pyIsAlpha).length := by
      rw [textToNumbers_length, hfself, vigDecrypt_length]
    unfold engineDecrypt hillDecrypt
    constructor
    · intro hsome
      by_contra hmod
      rw [blocksMulMod_none hn _ _ rfl (by rw [hlen]; exact hmod)] at hsome
      simp at hsome
    · intro hmod
      obtain ⟨out, hout, _, _⟩ :=
        blocksMulMod_total hilen hn _ _ rfl (by rw [hlen]; exact hmod)
      rw [hout]
      rfl

/-- C3 amended witness: the spec scenario pipeline on the one-letter
string A. -/
theorem C3_amended_witness :
    (engineEncrypt testEngine [65]).isSome = true ∧
    ((engineDecrypt testEngine [65]).isSome = true ↔
      (([65] : List Nat).filter pyIsAlpha).length % testEngine.hill.n = 0) :=
  C3_amended_totality [[3, 3], [2, 5]] secretKey testEngine (by decide) [65]

/-- C10: on input with no alphabetic characters the Hill stage, the
Vigenere stage and the whole pipeline all encrypt to the empty string; no
padding is added because the empty normalised text already has length a
multiple of the order. -/
theorem C10_empty_input (hk : List (List Int)) (vk : List Nat) (e : Engine)
    (hinit : engineInit hk vk = .ok e) (s : List Nat)
    (hs : s.filter pyIsAlpha = []) :
    hillEncrypt e.hill s = some [] ∧ vigEncrypt e.vig s = [] ∧
      engineEncrypt e s = some [] := by
  obtain ⟨hh, hv⟩ := engineInit_ok hinit
  obtain ⟨h23, hklen, hilen, _⟩ := hillInit_ok_props hh
  have hn0 : e.hill.n ≠ 0 := by omega
  have hnorm : pyNormalize s = [] := by
    unfold pyNormalize
    rw [hs]
    rfl
  have hpad : padText e.hill.n s = [] := by
    unfold padText
    rw [hnorm]
    simp
  have henc : hillEncrypt e.hill s = some [] := by
    unfold hillEncrypt
    rw [hpad]
    have hemp : textToNumbers ([] : List Nat) = [] := rfl
    rw [hemp, blocksMulMod_nil hn0]
    rfl
  have hvenc : vigEncrypt e.vig s = [] := by
    unfold vigEncrypt
    rw [textToNumbers_pyNormalize]
    unfold textToNumbers
    rw [hs]
    rfl
  refine ⟨henc, hvenc, ?_⟩
  unfold engineEncrypt
  rw [henc]
  rfl

/-- C10 witness: the spec scenario pipeline on a digits-and-punctuation
string. -/
theorem C10_witness :
    hillEncrypt testEngine.hill [50, 48, 50, 52, 33] = some [] ∧
      vigEncrypt testEngine.vig [50, 48, 50, 52, 33] = [] ∧
      engineEncrypt testEngine [50, 48, 50, 52, 33] = some [] :=
  C10_empty_input [[3, 3], [2, 5]] secretKey testEngine (by decide)
    [50, 48, 50, 52, 33] (by decide)

/-! Key-validation claims. -/

theorem scan_units : ∀ d : Nat, d < 26 → Nat.gcd d 26 = 1 →
    (modInverseScan (d : Int) 26).isSome = true := by
  decide

/-- C4: for every 2x2 or 3x3 integer matrix, HillCipher construction fails
exactly when the determinant reduced mod 26 is zero or shares a factor
with 26; the matrix with rows 1 1 and 1 1 and the matrix with rows 2 4 and
4 8 are rejected, the matrix with rows 3 3 and 2 5 constructs. -/
theorem C4_hill_key_validation :
    (∀ M : List (List Int), (M.length = 2 ∨ M.length = 3) →
      (∀ r ∈ M, r.length = M.length) →
      (((hillInit M).isOk = false) ↔
        (detM M % 26 = 0 ∨ Int.gcd (detM M % 26) 26 ≠ 1))) ∧
    (hillInit [[1, 1], [1, 1]]).isOk = false ∧
    (hillInit [[2, 4], [4, 8]]).isOk = false ∧
    (hillInit [[3, 3], [2, 5]]).isOk = true := by
  refine ⟨?_, by decide, by decide, by decide⟩
  intro M h23 hsq
  have hne : M ≠ [] := by
    intro hc
    subst hc
    simp at h23
  obtain ⟨m, t, rfl⟩ := List.exists_cons_of_ne_nil hne
  have hhead : ((m :: t).headD []).length = (m :: t).length :=
    hsq m (List.mem_cons_self m t)
  unfold hillInit
  rw [if_neg (not_not_intro fun r hr => by rw [hsq r hr, hhead]),
    if_neg (not_not_intro h23), if_neg (not_ne_iff.mpr hhead)]
  by_cases hdet : detM (m :: t) % 26 = 0 ∨ Int.gcd (detM (m :: t) % 26) 26 ≠ 1
  · rw [if_pos hdet]
    exact iff_of_true rfl hdet
  · rw [if_neg hdet]
    push_neg at hdet
    have h0 : 0 ≤ detM (m :: t) % 26 := Int.emod_nonneg _ (by norm_num)
    have h1 : detM (m :: t) % 26 < 26 := Int.emod_lt_of_pos _ (by norm_num)
    have hcast : ((detM (m :: t) % 26).toNat : Int) = detM (m :: t) % 26 :=
      Int.toNat_of_nonneg h0
    have hgcdnat : Nat.gcd (detM (m :: t) % 26).toNat 26 = 1 := by
      have hna : (detM (m :: t) % 26).natAbs = (detM (m :: t) % 26).toNat := by
        omega
      have h2 := hdet.2
      unfold Int.gcd at h2
      rw [hna] at h2
      simpa using h2
    have hsome := scan_units (detM (m :: t) % 26).toNat (by omega) hgcdnat
    rw [hcast] at hsome
    obtain ⟨di, hdi⟩ := Option.isSome_iff_exists.mp hsome
    rw [hdi]
    constructor
    · intro hfalse
      simp [Except.isOk, Except.toBool] at hfalse
    · intro hcond
      rcases hcond with hcond | hcond
      · exact absurd hcond hdet.1
      · exact absurd hdet.2 hcond

/-- C4 witness: the iff applied to a concrete rejected matrix. -/
theorem C4_witness :
    ((hillInit [[2, 0], [0, 2]]).isOk = false) ↔
      (detM [[2, 0], [0, 2]] % 26 = 0 ∨
        Int.gcd (detM [[2, 0], [0, 2]] % 26) 26 ≠ 1) :=
  C4_hill_key_validation.1 [[2, 0], [0, 2]] (by decide) (by decide)

/-- C7: VigenereCipher construction fails exactly when the key has no
alphabetic character; the key 123 is rejected with the empty-key error, the
key SECRET is accepted, and CipherEngine propagates the failure. -/
theorem C7_vig_key_validation :
    (∀ k : List Nat, ((vigInit k).isOk = false) ↔ pyNormalize k = []) ∧
    vigInit [49, 50, 51] = .error .emptyKey ∧
    (vigInit secretKey).isOk = true ∧
    (∀ (hk : List (List Int)) (vk : List Nat) (h : HillState),
      hillInit hk = .ok h → vigInit vk = .error .emptyKey →
      engineInit hk vk = .error .emptyKey) := by
  refine ⟨?_, by decide, by decide, ?_⟩
  · intro k
    unfold vigInit
    by_cases hk : pyNormalize k = []
    · rw [if_pos hk]
      exact iff_of_true rfl hk
    · rw [if_neg hk]
      exact iff_of_false (by simp [Except.isOk, Except.toBool]) hk
  · intro hk vk h hh hv
    unfold engineInit
    rw [hh, hv]

/-- C7 witness: the propagation applied to the spec scenario keys. -/
theorem C7_witness :
    engineInit [[3, 3], [2, 5]] [49, 50, 51] = .error .emptyKey :=
  C7_vig_key_validation.2.2.2 [[3, 3], [2, 5]] [49, 50, 51] testHill
    (by decide) (by decide)

/-- C8 counterexample: a matrix of 2 rows of length 3 passes the
order-check of the source, whose shape test looks only at the row count,
and construction then fails inside the numpy determinant with a non-square
linear-algebra error rather than the invalid-key-shape ValueError the
claim names. -/
theorem C8_counterexample :
    hillInit [[1, 2, 3], [4, 5, 6]] = .error .nonSquareLinAlg ∧
      hillInit [[1, 2, 3], [4, 5, 6]] ≠ .error .invalidKeyShape := by
  decide

/-- C8 amended: construction never succeeds on a key that is not a square
matrix of order 2 or 3; a uniform-row matrix whose row count is not 2 or 3
fails with the invalid-key-shape error, while a matrix of 2 or 3 uniform
rows whose row length differs from the row count fails with the non-square
error of the numpy determinant. -/
theorem C8_amended_shape_validation :
    (∀ M : List (List Int), (∀ r ∈ M, r.length = (M.headD []).length) →
      ¬(M.length = 2 ∨ M.length = 3) → hillInit M = .error .invalidKeyShape) ∧
    (∀ M : List (List Int), (∀ r ∈ M, r.length = (M.headD []).length) →
      (M.length = 2 ∨ M.length = 3) → (M.headD []).length ≠ M.length →
      hillInit M = .error .nonSquareLinAlg) ∧
    (∀ M : List (List Int),
      ¬((M.length = 2 ∨ M.length = 3) ∧ (∀ r ∈ M, r.length = M.length)) →
      (hillInit M).isOk = false) := by
  refine ⟨?_, ?_, ?_⟩
  · intro M hu h23
    unfold hillInit
    rw [if_neg (not_not_intro hu), if_pos (by exact h23)]
  · intro M hu h23 hsquare
    unfold hillInit
    rw [if_neg (not_not_intro hu), if_neg (not_not_intro h23), if_pos hsquare]
  · intro M hbad
    by_cases hu : ∀ r ∈ M, r.length = (M.headD []).length
    · by_cases h23 : M.length = 2 ∨ M.length = 3
      · have hne : M ≠ [] := by
          intro hc
          subst hc
          simp at h23
        obtain ⟨m, t, hm⟩ := List.exists_cons_of_ne_nil hne
        have hsquare : (M.headD []).length ≠ M.length := by
          intro heq
          exact hbad ⟨h23, fun r hr => by rw [hu r hr, heq]⟩
        unfold hillInit
        rw [if_neg (not_not_intro hu), if_neg (not_not_intro h23),
          if_pos hsquare]
        rfl
      · unfold hillInit
        rw [if_neg (not_not_intro hu), if_pos (by exact h23)]
        rfl
    · unfold hillInit
      rw [if_pos (by exact hu)]
      rfl

/-- C8 amended witness: a uniform 4x4 matrix is rejected with the
invalid-key-shape error. -/
theorem C8_amended_witness :
    hillInit [[1, 1, 1, 1], [1, 1, 1, 1], [1, 1, 1, 1], [1, 1, 1, 1]] =
      .error .invalidKeyShape :=
  C8_amended_shape_validation.1
    [[1, 1, 1, 1], [1, 1, 1, 1], [1, 1, 1, 1], [1, 1, 1, 1]]
    (by decide) (by decide)

/-- C9: every string produced by either stage, in either direction, and by
the pipeline, consists of uppercase letters only; the Vigenere outputs have
exactly one letter per alphabetic input character, and the Hill encryption
output length is the least multiple of the order that is at least the
number of alphabetic input characters. -/
theorem C9_output_invariants (hk : List (List Int)) (vk : List Nat)
    (e : Engine) (hinit : engineInit hk vk = .ok e) :
    (∀ s ct, hillEncrypt e.hill s = some ct →
      (∀ c ∈ ct, 65 ≤ c ∧ c ≤ 90) ∧ ct.length % e.hill.n = 0 ∧
        (s.filter pyIsAlpha).length ≤ ct.length ∧
        ct.length < (s.filter pyIsAlpha).length + e.hill.n) ∧
    (∀ s pt, hillDecrypt e.hill s = some pt → ∀ c ∈ pt, 65 ≤ c ∧ c ≤ 90) ∧
    (∀ s, (∀ c ∈ vigEncrypt e.vig s, 65 ≤ c ∧ c ≤ 90) ∧
      (vigEncrypt e.vig s).length = (s.filter pyIsAlpha).length) ∧
    (∀ s, (∀ c ∈ vigDecrypt e.vig s, 65 ≤ c ∧ c ≤ 90) ∧
      (vigDecrypt e.vig s).length = (s.filter pyIsAlpha).length) ∧
    (∀ s ct, engineEncrypt e s = some ct → ∀ c ∈ ct, 65 ≤ c ∧ c ≤ 90) ∧
    (∀ s pt, engineDecrypt e s = some pt → ∀ c ∈ pt, 65 ≤ c ∧ c ≤ 90) := by
  obtain ⟨hh, hv⟩ := engineInit_ok hinit
  obtain ⟨h23, hklen, hilen, _⟩ := hillInit_ok_props hh
  have hn : 0 < e.hill.n := by omega
  have hdecAux : ∀ s pt, hillDecrypt e.hill s = some pt →
      ∀ c ∈ pt, 65 ≤ c ∧ c ≤ 90 := by
    intro s pt hpt
    unfold hillDecrypt at hpt
    obtain ⟨out, hout, hpt2⟩ := Option.map_eq_some'.mp hpt
    subst hpt2
    exact numbersToText_upper
      (blocksMulMod_out_bounds (textToNumbers s).length _ out rfl hout)
  refine ⟨?_, hdecAux, ?_, ?_, ?_, ?_⟩
  · intro s ct hct
    obtain ⟨ct2, hct2, hupper, hlen, _⟩ := hill_roundtrip hh s
    rw [hct] at hct2
    have heq : ct = ct2 := by
      injection hct2
    subst heq
    obtain ⟨hb1, hb2⟩ := padText_length_bounds (n := e.hill.n) (s := s) hn
    refine ⟨hupper, ?_, ?_, ?_⟩
    · rw [hlen]
      exact padText_mod hn
    · omega
    · omega
  · intro s
    exact ⟨vigEncrypt_upper, vigEncrypt_length⟩
  · intro s
    exact ⟨vigDecrypt_upper, vigDecrypt_length⟩
  · intro s ct hct
    unfold engineEncrypt at hct
    obtain ⟨mid, hmid, hct2⟩ := Option.map_eq_some'.mp hct
    subst hct2
    exact vigEncrypt_upper
  · intro s pt hpt
    exact hdecAux _ pt hpt

/-- C9 witness: the Vigenere length invariant applied to the spec scenario
pipeline on a concrete mixed input. -/
theorem C9_witness :
    (vigEncrypt testEngine.vig hiPunct).length =
      (hiPunct.filter pyIsAlpha).length :=
  ((C9_output_invariants [[3, 3], [2, 5]] secretKey testEngine
    (by decide)).2.2.1 hiPunct).2

/-! Index-level characterisation of the Vigenere loops. -/

theorem numbersToText_getD {l : List Int} {i : Nat} (h : i < l.length) :
    (numbersToText l).getD i 0 = (l.getD i 0).toNat + 65 := by
  have h2 : i < (numbersToText l).length := by
    rw [numbersToText_length]
    exact h
  rw [List.getD_eq_getElem _ _ h2, List.getD_eq_getElem _ _ h]
  simp [numbersToText]

theorem getD_map_letterVal {t : List Nat} {i : Nat} (h : i < t.length) :
    (t.map letterVal).getD i 0 = letterVal (t.getD i 0) := by
  have h2 : i < (t.map letterVal).length := by
    rw [List.length_map]
    exact h
  rw [List.getD_eq_getElem _ _ h2, List.getD_eq_getElem _ _ h]
  simp

theorem vigEncryptNums_getD {ks nums : List Int} {i : Nat} (h : i < nums.length) :
    (vigEncryptNums ks nums).getD i 0 =
      (nums.getD i 0 + ks.getD (i % ks.length) 0) % 26 := by
  have h2 : i < (vigEncryptNums ks nums).length := by
    rw [vigEncryptNums_length]
    exact h
  rw [List.getD_eq_getElem _ _ h2, List.getD_eq_getElem _ _ h]
  unfold vigEncryptNums
  simp [List.getElem_enum]

theorem vigDecryptNums_getD {ks nums : List Int} {i : Nat} (h : i < nums.length) :
    (vigDecryptNums ks nums).getD i 0 =
      (nums.getD i 0 - ks.getD (i % ks.length) 0) % 26 := by
  have h2 : i < (vigDecryptNums ks nums).length := by
    rw [vigDecryptNums_length]
    exact h
  rw [List.getD_eq_getElem _ _ h2, List.getD_eq_getElem _ _ h]
  unfold vigDecryptNums
  simp [List.getElem_enum]

/-- C6: for a constructed VigenereCipher, encryption sends the i-th
retained alphabetic letter of value v to the letter of value v plus the
key offset at position i modulo the key length, reduced mod 26; decryption
subtracts the same offset; and decryption inverts encryption up to
normalisation, for every string. -/
theorem C6_vigenere_correctness (vk : List Nat) (st : VigState) (s : List Nat)
    (hinit : vigInit vk = .ok st) :
    (∀ i, i < (pyNormalize s).length →
      (vigEncrypt st s).getD i 0 =
        ((letterVal ((pyNormalize s).getD i 0) +
          st.keyNumbers.getD (i % st.keyNumbers.length) 0) % 26).toNat + 65 ∧
      (vigDecrypt st s).getD i 0 =
        ((letterVal ((pyNormalize s).getD i 0) -
          st.keyNumbers.getD (i % st.keyNumbers.length) 0) % 26).toNat + 65) ∧
    vigDecrypt st (vigEncrypt st s) = pyNormalize s := by
  have hnums : textToNumbers (pyNormalize s) = (pyNormalize s).map letterVal :=
    textToNumbers_eq_map_of_upper pyNormalize_upper
  have hnlen : (textToNumbers (pyNormalize s)).length = (pyNormalize s).length := by
    rw [hnums, List.length_map]
  refine ⟨?_, vig_roundtrip hinit s⟩
  intro i hi
  have hi2 : i < (textToNumbers (pyNormalize s)).length := by
    rw [hnlen]
    exact hi
  constructor
  · unfold vigEncrypt
    rw [numbersToText_getD (by rw [vigEncryptNums_length]; exact hi2),
      vigEncryptNums_getD hi2, hnums, getD_map_letterVal hi]
  · unfold vigDecrypt
    rw [numbersToText_getD (by rw [vigDecryptNums_length]; exact hi2),
      vigDecryptNums_getD hi2, hnums, getD_map_letterVal hi]

/-- C6 witness: the decrypt-encrypt inverse on the spec scenario. -/
theorem C6_witness :
    vigDecrypt testVig (vigEncrypt testVig helloWorld) =
      pyNormalize helloWorld :=
  (C6_vigenere_correctness secretKey testVig helloWorld (by decide)).2

/-! Refinement of the block loop to the index-addressed block description
of the specification. -/

theorem blocksMulMod_step_some {M : List (List Int)} {n : Nat}
    {nums rest : List Int} (hn : n ≠ 0) (h : nums ≠ [])
    (hlen : ¬ nums.length < n)
    (hrest : blocksMulMod M n (nums.drop n) = some rest) :
    blocksMulMod M n nums = some (matVecMod M (nums.take n) ++ rest) := by
  rw [blocksMulMod_step hn h hlen, hrest]

theorem blocksMulMod_ranges {M : List (List Int)} {n : Nat} (hn : 0 < n) :
    ∀ k (nums : List Int), nums.length = k → nums.length % n = 0 →
      blocksMulMod M n nums =
        some (((List.range (nums.length / n)).map
          (fun b => matVecMod M ((nums.drop (b * n)).take n))).flatten) := by
  intro k
  induction k using Nat.strong_induction_on with
  | _ k ih =>
    intro nums hk hmod
    rcases eq_or_ne nums [] with hnil | hnil
    · subst hnil
      rw [blocksMulMod_nil (by omega)]
      simp
    · have hpos : 0 < nums.length := List.length_pos.mpr hnil
      have hge : n ≤ nums.length := by
        by_contra hlt
        rw [Nat.mod_eq_of_lt (by omega)] at hmod
        omega
      have hdropmod : (nums.drop n).length % n = 0 := by
        rw [List.length_drop]
        have heq : nums.length - n + n = nums.length := by omega
        rw [← Nat.add_mod_right (nums.length - n) n, heq]
        exact hmod
      have hihs := ih (nums.drop n).length (by rw [List.length_drop]; omega)
        (nums.drop n) rfl hdropmod
      rw [blocksMulMod_step_some (by omega) hnil (by omega) hihs]
      congr 1
      have hdiv : nums.length / n = (nums.drop n).length / n + 1 := by
        rw [List.length_drop]
        have h1 : nums.length = (nums.length - n) + n := by omega
        conv_lhs => rw [h1]
        rw [Nat.add_div_right _ hn]
      rw [hdiv, List.range_succ_eq_map, List.map_cons, List.flatten_cons,
        List.map_map]
      congr 1
      · rw [Nat.zero_mul, List.drop_zero]
      · congr 1
        have hfun : ∀ b : Nat, List.drop (b * n) (List.drop n nums) =
            List.drop ((b + 1) * n) nums := by
          intro b
          rw [List.drop_drop]
          congr 1
          ring
        refine List.map_congr_left fun b _ => ?_
        simp only [Function.comp_apply, Nat.succ_eq_add_one]
        rw [hfun b]

/-- C5: HillCipher.encrypt computes exactly the spec-described algorithm:
normalise to uppercase letters-only, right-pad with the letter X to a
multiple of the order, map letters to values, multiply each consecutive
non-overlapping block of size n by the key matrix reduced mod 26, and map
back to letters; and on the spec example, the key with rows 3 3 and 2 5
sends the block of values 7 4, the letters HE, to the values 7 8, the
letters HI. -/
theorem C5_hill_encrypt_follows_spec :
    (∀ (M : List (List Int)) (st : HillState) (s : List Nat),
      hillInit M = .ok st → hillEncrypt st s = some (hillEncryptSpec M st.n s)) ∧
    matVecMod [[3, 3], [2, 5]] [7, 4] = [7, 8] ∧
    hillEncrypt testHill [72, 69] = some [72, 73] := by
  refine ⟨?_, by decide, by decide⟩
  intro M st s h
  obtain ⟨hkey, hn_eq, h23, hsq, di, hscan, hinv⟩ := hillInit_ok_spec h
  have hn : 0 < st.n := by
    rcases h23 with h2 | h3 <;> omega
  have hpad : padText st.n s = pyNormalize s ++
      List.replicate ((st.n - (pyNormalize s).length % st.n) % st.n) 88 :=
    padText_eq_inline hn
  have hupper : ∀ c ∈ padText st.n s, 65 ≤ c ∧ c ≤ 90 := padText_upper
  have hnums : textToNumbers (padText st.n s) = (padText st.n s).map letterVal :=
    textToNumbers_eq_map_of_upper hupper
  have hmod2 : ((pyNormalize s ++
      List.replicate ((st.n - (pyNormalize s).length % st.n) % st.n) 88).map
        letterVal).length % st.n = 0 := by
    rw [List.length_map, ← hpad]
    exact padText_mod hn
  unfold hillEncrypt
  rw [hkey, hnums, hpad, blocksMulMod_ranges hn _ _ rfl hmod2, Option.map_some']
  congr 1

/-- C5 witness: the refinement applied to the spec scenario key and
plaintext. -/
theorem C5_witness :
    hillEncrypt testHill helloWorld =
      some (hillEncryptSpec [[3, 3], [2, 5]] testHill.n helloWorld) :=
  C5_hill_encrypt_follows_spec.1 [[3, 3], [2, 5]] testHill helloWorld (by decide)
